import Mathlib

/-!
The golang-set package: a generic set on top of the built-in Go map.

Shallow embedding of `set.go`.

`type Set[T comparable] map[T]struct{}` is a Go map whose element type has a
single value, so an entry is determined by its key.  A value of the type is
either the nil map (the zero value of every map type) or an allocated hash
table holding pairwise distinct keys.  Go maps are references that the methods
mutate in place; here every mutating method returns the content of the map
after the call.

The order in which `range` visits a map is not specified by Go; an iteration is
given by a `Range`, any arrangement of the keys, and the results about `Foreach`
and `ToSlice` hold for every one of them.  Slices are their elements together
with the distinction between the nil slice and an empty one.

The element type is taken with a decidable equality that is reflexive, which is
what the hash table relies on (a floating-point NaN, which differs from itself,
is outside the embedding).  `int` results are integers; the number of entries of
a map always fits the machine word.
-/

namespace GolangSet

/-- Run-time panics raised by the Go statements that occur in `set.go`. -/
inductive Panic where
  | assignmentToEntryInNilMap
  | makesliceCapOutOfRange
  deriving DecidableEq

/-- Values of `Set[T]`, that is of `map[T]struct{}`: the nil map, or an
allocated table with its keys, no key stored twice. -/
inductive Set (T : Type) where
  | nil : Set T
  | hmap (keys : List T) (nodup : keys.Nodup) : Set T

variable {T : Type}

/-- The keys stored in a map value; the nil map stores none. -/
def Set.keys : Set T → List T
  | .nil => []
  | .hmap keys _ => keys

/-- Built-in `make(Set[T], hint)`: a fresh allocated table without entries.
The capacity hint only sizes the allocation. -/
def make (_hint : Int) : Set T :=
  .hmap [] List.nodup_nil

/-- Go statement `m[k] = struct{}{}`: panics on the nil map, overwrites the entry
of a key that is present, and stores a new entry otherwise. -/
def mapassign [DecidableEq T] (m : Set T) (k : T) : Except Panic (Set T) :=
  match m with
  | .nil => .error .assignmentToEntryInNilMap
  | .hmap keys nodup =>
    if h : k ∈ keys then .ok (.hmap keys nodup)
    else .ok (.hmap (keys ++ [k])
      (List.Nodup.append nodup (List.nodup_singleton k)
        (by
          intro a ha hk
          rw [List.mem_singleton] at hk
          exact h (hk ▸ ha))))

/-- Built-in `delete(m, k)`: drops the entry of `k` when there is one; a no-op on
the nil map and for a key that is absent. -/
def delete [DecidableEq T] (m : Set T) (k : T) : Set T :=
  match m with
  | .nil => .nil
  | .hmap keys nodup => .hmap (keys.erase k) (nodup.erase k)

/-- Built-in `len(m)`: the number of entries, `0` for the nil map. -/
def len (m : Set T) : Int :=
  match m with
  | .nil => 0
  | .hmap keys _ => (keys.length : Int)

/-- Go expression `_, exists := m[k]`: whether `k` has an entry; `false` on the
nil map. -/
def mapaccess2 [DecidableEq T] (m : Set T) (k : T) : Bool :=
  match m with
  | .nil => false
  | .hmap keys _ => keys.contains k

/-- Go `func New[T comparable]() Set[T]`. -/
def New : Set T :=
  make 0

/-- Go `func (s Set[T]) Add(k T)`. -/
def Set.Add [DecidableEq T] (s : Set T) (k : T) : Except Panic (Set T) :=
  mapassign s k

/-- Go `func (s Set[T]) Remove(k T)`. -/
def Set.Remove [DecidableEq T] (s : Set T) (k : T) : Set T :=
  delete s k

/-- Go `func (s Set[T]) Len() int`. -/
def Set.Len (s : Set T) : Int :=
  len s

/-- Go `func (s Set[T]) Has(k T) bool`. -/
def Set.Has [DecidableEq T] (s : Set T) (k : T) : Bool :=
  mapaccess2 s k

/-- Go `func NewWith[T comparable](value ...T) Set[T]`: allocate, then `Add` every
argument in order. -/
def NewWith [DecidableEq T] (value : List T) : Except Panic (Set T) :=
  value.foldlM (fun set s => set.Add s) (make (value.length : Int))

/-- One run of `for value := range s`: the order in which the run visits the
keys.  Go leaves the order unspecified and it differs from one run to the next,
so every arrangement of the current keys is a run; the nil map has the empty run
only. -/
structure Range (s : Set T) where
  order : List T
  perm : List.Perm order s.keys

/-- The run that visits the keys in the order of the table. -/
def Range.inOrder (s : Set T) : Range s :=
  ⟨s.keys, List.Perm.refl s.keys⟩

/-- Values of the slice type `[]T`: the nil slice, or a slice of an array with
its elements.  The capacity is not observed by the package and is left out. -/
inductive Slice (T : Type) where
  | nil : Slice T
  | array (elems : List T) : Slice T

/-- The elements of a slice in index order; the nil slice has none. -/
def Slice.toList : Slice T → List T
  | .nil => []
  | .array elems => elems

/-- Built-in `len(list)` on a slice. -/
def Slice.len (list : Slice T) : Int :=
  (list.toList.length : Int)

/-- Go comparison `list == nil` on a slice. -/
def Slice.isNil : Slice T → Bool
  | .nil => true
  | .array _ => false

/-- Built-in `make([]T, 0, cap)`: an empty slice that is not nil; panics when the
capacity is negative. -/
def makeSlice (cap : Int) : Except Panic (Slice T) :=
  if cap < 0 then .error .makesliceCapOutOfRange else .ok (.array [])

/-- Built-in `append(list, value)`: the elements of `list` followed by `value`;
the result is never nil. -/
def append (list : Slice T) (value : T) : Slice T :=
  .array (list.toList ++ [value])

/-- Go `func (s Set[T]) Foreach(fun func(T))`: the visitor is a Go closure, which
acts on the state `σ` it has captured; it is called once per key of the run. -/
def Set.Foreach {σ : Type} (s : Set T) (run : Range s) (visit : T → σ → σ) (st : σ) : σ :=
  run.order.foldl (fun st value => visit value st) st

/-- Go `func (s Set[T]) ToSlice() []T`. -/
def Set.ToSlice (s : Set T) (run : Range s) : Except Panic (Slice T) :=
  (makeSlice s.Len).bind fun list =>
    .ok (run.order.foldl (fun list value => append list value) list)

/-- The arguments with which `Foreach` calls its visitor, in the order of the
calls: what a visitor that appends its argument to a log has recorded at the
end. -/
def Set.visits (s : Set T) (run : Range s) : List T :=
  s.Foreach run (fun value log => log ++ [value]) []

/-- The value that Go arithmetic on `int` (64 bits, two-complement) gives to
an integer result: results out of range wrap around. -/
def wrapInt (z : Int) : Int :=
  (z + 9223372036854775808) % 18446744073709551616 - 9223372036854775808

/-- Go `sum + value` on `int`. -/
def intAdd (sum value : Int) : Int :=
  wrapInt (sum + value)

/-- The finite set of the members of a map value. -/
def Set.members [DecidableEq T] (s : Set T) : Finset T :=
  s.keys.toFinset

/-- Equality of two sets as collections: the same `Len()` and the same answer of
`Has` for every element. -/
def Set.Equal [DecidableEq T] (s t : Set T) : Prop :=
  s.Len = t.Len ∧ ∀ x, s.Has x = t.Has x

/-- A call of one of the two mutating methods. -/
inductive Call (T : Type) where
  | Add (k : T) : Call T
  | Remove (k : T) : Call T
  deriving DecidableEq

/-- The effect of one call on a set. -/
def Call.apply [DecidableEq T] (s : Set T) : Call T → Except Panic (Set T)
  | .Add k => s.Add k
  | .Remove k => .ok (s.Remove k)

/-- The effect of a sequence of calls, made one after the other. -/
def Set.calls [DecidableEq T] (s : Set T) (cs : List (Call T)) : Except Panic (Set T) :=
  cs.foldlM Call.apply s

/-- The element `x` is live at the end of a sequence of calls: the sequence
contains an `Add(x)` that no later `Remove(x)` follows. -/
def Live (cs : List (Call T)) (x : T) : Prop :=
  ∃ before after, cs = before ++ Call.Add x :: after ∧ Call.Remove x ∉ after

/-! Observations of the built-ins on allocated tables and on the nil map. -/

theorem Has_hmap [DecidableEq T] (keys : List T) (nodup : keys.Nodup) (x : T) :
    (Set.hmap keys nodup).Has x = true ↔ x ∈ keys := by
  simp [Set.Has, mapaccess2]

theorem Has_eq_decide [DecidableEq T] (s : Set T) (x : T) : s.Has x = decide (x ∈ s.keys) := by
  cases s <;> simp [Set.Has, mapaccess2, Set.keys]

theorem Len_eq_length (s : Set T) : s.Len = (s.keys.length : Int) := by
  cases s <;> simp [Set.Len, len, Set.keys]

theorem keys_nodup (s : Set T) : s.keys.Nodup := by
  cases s with
  | nil => exact List.nodup_nil
  | hmap keys nodup => exact nodup

theorem hmap_congr {k₁ k₂ : List T} (h : k₁ = k₂) (n₁ : k₁.Nodup) (n₂ : k₂.Nodup) :
    Set.hmap k₁ n₁ = Set.hmap k₂ n₂ := by
  subst h; rfl

theorem Add_hmap_of_mem [DecidableEq T] {keys : List T} (nodup : keys.Nodup) {x : T} (h : x ∈ keys) :
    (Set.hmap keys nodup).Add x = .ok (.hmap keys nodup) := by
  simp [Set.Add, mapassign, h]

theorem Add_hmap_of_not_mem [DecidableEq T] {keys : List T} (nodup : keys.Nodup) {x : T} (h : x ∉ keys) :
    ∃ nodup1, (Set.hmap keys nodup).Add x = .ok (.hmap (keys ++ [x]) nodup1) := by
  have nodup1 : (keys ++ [x]).Nodup := by
    rw [List.nodup_append]
    refine ⟨nodup, List.nodup_singleton x, ?_⟩
    intro a ha hx
    rw [List.mem_singleton] at hx
    exact h (hx ▸ ha)
  exact ⟨nodup1, by simp [Set.Add, mapassign, h]⟩

/-- On an allocated table `Add` returns an allocated table whose keys are the
old ones, followed by the new key when it was absent. -/
theorem Add_hmap [DecidableEq T] (keys : List T) (nodup : keys.Nodup) (x : T) :
    ∃ keys1 nodup1, (Set.hmap keys nodup).Add x = .ok (.hmap keys1 nodup1) ∧
      keys1 = if x ∈ keys then keys else keys ++ [x] := by
  by_cases h : x ∈ keys
  · exact ⟨keys, nodup, Add_hmap_of_mem nodup h, by simp [h]⟩
  · obtain ⟨n1, h1⟩ := Add_hmap_of_not_mem nodup h
    exact ⟨keys ++ [x], n1, h1, by simp [h]⟩

theorem Remove_keys [DecidableEq T] (s : Set T) (x : T) : (s.Remove x).keys = s.keys.erase x := by
  cases s <;> simp [Set.Remove, delete, Set.keys]

/-- The loop of `NewWith` started on an allocated table never panics, and ends on
an allocated table holding the old keys and the values added. -/
theorem foldlM_Add_hmap [DecidableEq T] (vs : List T) :
    ∀ (keys : List T) (nodup : keys.Nodup),
      ∃ keys1 nodup1,
        vs.foldlM (fun set s => Set.Add set s) (Set.hmap keys nodup)
          = .ok (Set.hmap keys1 nodup1) ∧
        ∀ x, x ∈ keys1 ↔ x ∈ keys ∨ x ∈ vs := by
  induction vs with
  | nil =>
    intro keys nodup
    exact ⟨keys, nodup, rfl, by simp⟩
  | cons v vs ih =>
    intro keys nodup
    obtain ⟨k1, n1, hadd, hk1⟩ := Add_hmap keys nodup v
    obtain ⟨k2, n2, hfold, hk2⟩ := ih k1 n1
    refine ⟨k2, n2, ?_, ?_⟩
    · rw [List.foldlM_cons, hadd]
      exact hfold
    · intro x
      rw [hk2 x, hk1]
      by_cases hv : v ∈ keys
      · simp only [hv, if_true, List.mem_cons]
        constructor
        · rintro (h | h)
          · exact Or.inl h
          · exact Or.inr (Or.inr h)
        · rintro (h | h | h)
          · exact Or.inl h
          · exact Or.inl (h ▸ hv)
          · exact Or.inr h
      · simp only [hv, if_false, List.mem_append, List.mem_singleton, List.mem_cons]
        tauto

/-- What `NewWith` returns: an allocated table whose keys are exactly the values
passed. -/
theorem NewWith_hmap [DecidableEq T] (vs : List T) :
    ∃ keys nodup, NewWith vs = .ok (Set.hmap keys nodup) ∧ ∀ x, x ∈ keys ↔ x ∈ vs := by
  obtain ⟨k, n, h, hk⟩ := foldlM_Add_hmap vs [] List.nodup_nil
  exact ⟨k, n, h, by simpa using hk⟩

/-- Two allocated tables with the same keys are the same value. -/
theorem eq_of_keys_eq {s t : Set T} (hs : s ≠ Set.nil) (ht : t ≠ Set.nil)
    (h : s.keys = t.keys) : s = t := by
  cases s with
  | nil => exact absurd rfl hs
  | hmap ks ns =>
    cases t with
    | nil => exact absurd rfl ht
    | hmap kt nt => exact hmap_congr h ns nt

/-- On every map value but the nil map, `Add` returns; the result is again
allocated and its keys are the old ones, followed by the new key when it was
absent. -/
theorem Add_ok [DecidableEq T] (s : Set T) (hs : s ≠ Set.nil) (x : T) :
    ∃ s1, s.Add x = .ok s1 ∧ s1 ≠ Set.nil ∧
      s1.keys = if x ∈ s.keys then s.keys else s.keys ++ [x] := by
  cases s with
  | nil => exact absurd rfl hs
  | hmap keys nodup =>
    obtain ⟨k1, n1, h1, hk⟩ := Add_hmap keys nodup x
    exact ⟨_, h1, by simp, by simpa [Set.keys] using hk⟩

theorem Remove_eq_nil_iff [DecidableEq T] (s : Set T) (x : T) :
    s.Remove x = Set.nil ↔ s = Set.nil := by
  cases s <;> simp [Set.Remove, delete]

theorem mem_keys_Remove [DecidableEq T] (s : Set T) (x y : T) :
    y ∈ (s.Remove x).keys ↔ y ≠ x ∧ y ∈ s.keys := by
  rw [Remove_keys]
  exact (keys_nodup s).mem_erase_iff

/-- Membership after a run of `Remove` calls. -/
theorem Has_foldl_Remove [DecidableEq T] (xs : List T) :
    ∀ (s : Set T) (y : T),
      (xs.foldl Set.Remove s).Has y = true ↔ s.Has y = true ∧ y ∉ xs := by
  induction xs with
  | nil => intro s y; simp
  | cons x xs ih =>
    intro s y
    rw [List.foldl_cons, ih (s.Remove x) y, Has_eq_decide, Has_eq_decide]
    simp only [decide_eq_true_eq, mem_keys_Remove, List.mem_cons, not_or]
    tauto

/-- Adding values that are new and pairwise distinct stores them in order. -/
theorem foldlM_Add_nodup [DecidableEq T] (vs : List T) :
    ∀ (keys : List T) (nodup : keys.Nodup) (all : (keys ++ vs).Nodup),
      vs.foldlM (fun set s => Set.Add set s) (Set.hmap keys nodup)
        = .ok (Set.hmap (keys ++ vs) all) := by
  induction vs with
  | nil =>
    intro keys nodup all
    exact congrArg Except.ok (hmap_congr (List.append_nil keys).symm nodup all)
  | cons v vs ih =>
    intro keys nodup all
    have hv : v ∉ keys := by
      intro hmem
      have hdisj := (List.nodup_append.1 all).2.2
      exact hdisj hmem (List.mem_cons_self v vs)
    obtain ⟨n1, h1⟩ := Add_hmap_of_not_mem nodup hv
    have all1 : (keys ++ [v] ++ vs).Nodup := by
      simpa using all
    rw [List.foldlM_cons, h1]
    exact (ih (keys ++ [v]) n1 all1).trans
      (congrArg Except.ok (hmap_congr (by simp) all1 all))

/-- The map values other than the nil map are exactly the sets that `NewWith`
builds: the sets of the package are the allocated maps. -/
theorem ne_nil_iff_NewWith [DecidableEq T] (s : Set T) :
    s ≠ Set.nil ↔ ∃ vs, NewWith vs = .ok s := by
  constructor
  · intro hs
    cases s with
    | nil => exact absurd rfl hs
    | hmap keys nodup =>
      refine ⟨keys, ?_⟩
      have all : ([] ++ keys).Nodup := by simpa using nodup
      exact (foldlM_Add_nodup keys [] List.nodup_nil all).trans
        (congrArg Except.ok (hmap_congr (by simp) all nodup))
  · rintro ⟨vs, hvs⟩
    obtain ⟨k, n, h, _⟩ := NewWith_hmap vs
    rw [h] at hvs
    cases hvs
    simp

/-- C1: for every sequence of values `vs` (empty or with repeats) and every `x`,
`NewWith(vs...)` returns a set, and `Has(x)` on it is true exactly when `x`
occurs in `vs`. -/
theorem NewWith_Has_iff_mem [DecidableEq T] (vs : List T) (x : T) :
    ∃ s, NewWith vs = .ok s ∧ (s.Has x = true ↔ x ∈ vs) := by
  obtain ⟨k, n, h, hk⟩ := NewWith_hmap vs
  exact ⟨_, h, by rw [Has_hmap, hk]⟩

/-- C2: for every sequence of values `vs`, `NewWith(vs...)` returns a set whose
`Len()` is the number of distinct values occurring in `vs`; from
`["a","b","a","c","b"]` the length is 3 and from a single argument it is 1. -/
theorem NewWith_Len_eq_distinct :
    (∀ (T : Type) [DecidableEq T] (vs : List T),
      ∃ s, NewWith vs = .ok s ∧ s.Len = (vs.toFinset.card : Int)) ∧
    (∃ s, NewWith ["a", "b", "a", "c", "b"] = .ok s ∧ s.Len = 3) ∧
    (∀ (T : Type) [DecidableEq T] (v : T), ∃ s, NewWith [v] = .ok s ∧ s.Len = 1) := by
  have key : ∀ (T : Type) [DecidableEq T] (vs : List T),
      ∃ s, NewWith vs = .ok s ∧ s.Len = (vs.toFinset.card : Int) := by
    intro T _ vs
    obtain ⟨k, n, h, hk⟩ := NewWith_hmap vs
    refine ⟨_, h, ?_⟩
    have hset : k.toFinset = vs.toFinset := by
      ext x
      simp [hk]
    rw [← hset, List.toFinset_card_of_nodup n]
    simp [Set.Len, len]
  refine ⟨key, ⟨_, rfl, rfl⟩, ?_⟩
  intro T _ v
  obtain ⟨s, hs, hl⟩ := key T [v]
  exact ⟨s, hs, by simpa using hl⟩

/-- C3: for every set `S` (an allocated map, as `New` and `NewWith` return) and
elements `x`, `y`: `S.Add(x)` returns, afterwards `Has(x)` is true, and for every
`y` different from `x`, `Has(y)` has the value it had before the `Add`. -/
theorem Add_Has_frame [DecidableEq T] (s : Set T) (hs : s ≠ Set.nil) (x : T) :
    ∃ s1, s.Add x = .ok s1 ∧ s1.Has x = true ∧ ∀ y, y ≠ x → s1.Has y = s.Has y := by
  obtain ⟨s1, h1, _, hk⟩ := Add_ok s hs x
  refine ⟨s1, h1, ?_, ?_⟩
  · rw [Has_eq_decide, hk]
    by_cases hx : x ∈ s.keys <;> simp [hx]
  · intro y hy
    rw [Has_eq_decide, Has_eq_decide, hk]
    by_cases hx : x ∈ s.keys <;> simp [hx, hy]

theorem Add_Has_frame_witness :
    (New : Set String) ≠ Set.nil ∧
      ∃ s1, (New : Set String).Add "a" = .ok s1 ∧ s1.Has "a" = true ∧
        s1.Has "b" = (New : Set String).Has "b" :=
  ⟨by simp [New, make],
    match Add_Has_frame (New : Set String) (by simp [New, make]) "a" with
    | ⟨s1, h1, h2, h3⟩ => ⟨s1, h1, h2, h3 "b" (by decide)⟩⟩

/-- C4: for every set `S` (an allocated map) and element `x`, `S.Add(x)` returns;
when `x` was not a member, `Len()` afterwards is the previous `Len()` plus one,
and when `x` was a member, `Len()` afterwards is the previous `Len()`. -/
theorem Add_Len [DecidableEq T] (s : Set T) (hs : s ≠ Set.nil) (x : T) :
    ∃ s1, s.Add x = .ok s1 ∧
      (s.Has x = false → s1.Len = s.Len + 1) ∧
      (s.Has x = true → s1.Len = s.Len) := by
  obtain ⟨s1, h1, _, hk⟩ := Add_ok s hs x
  refine ⟨s1, h1, ?_, ?_⟩
  · intro hx
    rw [Has_eq_decide, decide_eq_false_iff_not] at hx
    rw [Len_eq_length, Len_eq_length, hk, if_neg hx]
    simp
  · intro hx
    rw [Has_eq_decide, decide_eq_true_eq] at hx
    rw [Len_eq_length, Len_eq_length, hk, if_pos hx]

theorem Add_Len_witness :
    ((New : Set String) ≠ Set.nil ∧ (New : Set String).Has "a" = false ∧
      ∃ s1, (New : Set String).Add "a" = .ok s1 ∧ s1.Len = (New : Set String).Len + 1) ∧
    (Set.hmap ["a"] (by decide) ≠ Set.nil ∧ (Set.hmap ["a"] (by decide)).Has "a" = true ∧
      ∃ s1, (Set.hmap ["a"] (by decide)).Add "a" = .ok s1 ∧
        s1.Len = (Set.hmap ["a"] (by decide)).Len) :=
  ⟨⟨by simp [New, make], by decide,
      match Add_Len (New : Set String) (by simp [New, make]) "a" with
      | ⟨s1, h1, h2, _⟩ => ⟨s1, h1, h2 (by decide)⟩⟩,
    ⟨by simp, by decide,
      match Add_Len (Set.hmap ["a"] (by decide)) (by simp) "a" with
      | ⟨s1, h1, _, h3⟩ => ⟨s1, h1, h3 (by decide)⟩⟩⟩

/-- C5: idempotent insertion: for every set `S` (an allocated map) and element
`x`, `Add(x)` followed by `Add(x)` again both return, and the second call leaves
`Len()` and the membership of every element as they are after the first. -/
theorem Add_Add_idempotent [DecidableEq T] (s : Set T) (hs : s ≠ Set.nil) (x : T) :
    ∃ s1, s.Add x = .ok s1 ∧
      ∃ s2, s1.Add x = .ok s2 ∧ s2.Len = s1.Len ∧ ∀ y, s2.Has y = s1.Has y := by
  obtain ⟨s1, h1, hn1, hk1⟩ := Add_ok s hs x
  obtain ⟨s2, h2, _, hk2⟩ := Add_ok s1 hn1 x
  have hx : x ∈ s1.keys := by
    rw [hk1]
    by_cases hx : x ∈ s.keys <;> simp [hx]
  rw [if_pos hx] at hk2
  refine ⟨s1, h1, s2, h2, ?_, ?_⟩
  · rw [Len_eq_length, Len_eq_length, hk2]
  · intro y
    rw [Has_eq_decide, Has_eq_decide, hk2]

theorem Add_Add_idempotent_witness :
    (New : Set String) ≠ Set.nil ∧
      ∃ s1, (New : Set String).Add "test" = .ok s1 ∧
        ∃ s2, s1.Add "test" = .ok s2 ∧ s2.Len = s1.Len ∧ ∀ y, s2.Has y = s1.Has y :=
  ⟨by simp [New, make], Add_Add_idempotent New (by simp [New, make]) "test"⟩

/-- C6: for every set `S` and elements `x`, `y`: after `S.Remove(x)`, `Has(x)` is
false, and for every `y` different from `x`, `Has(y)` has the value it had before
the `Remove`. -/
theorem Remove_Has_frame [DecidableEq T] (s : Set T) (x : T) :
    (s.Remove x).Has x = false ∧ ∀ y, y ≠ x → (s.Remove x).Has y = s.Has y := by
  constructor
  · rw [Has_eq_decide, decide_eq_false_iff_not, mem_keys_Remove]
    exact fun h => h.1 rfl
  · intro y hy
    rw [Has_eq_decide, Has_eq_decide]
    simp [mem_keys_Remove, hy]

theorem Remove_Has_frame_witness :
    ((Set.hmap ["a", "b"] (by decide)).Remove "a").Has "a" = false ∧
      ((Set.hmap ["a", "b"] (by decide)).Remove "a").Has "b"
        = (Set.hmap ["a", "b"] (by decide)).Has "b" :=
  ⟨(Remove_Has_frame (Set.hmap ["a", "b"] (by decide)) "a").1,
    (Remove_Has_frame (Set.hmap ["a", "b"] (by decide)) "a").2 "b" (by decide)⟩

/-- C7: for every set `S` and member `x` of `S`, `Len()` after `S.Remove(x)` is
the previous `Len()` minus one and is not negative; and removing every member of
a set one by one ends with `Len() == 0`. -/
theorem Remove_Len :
    (∀ (T : Type) [DecidableEq T] (s : Set T) (x : T), s.Has x = true →
      (s.Remove x).Len = s.Len - 1 ∧ 0 ≤ (s.Remove x).Len) ∧
    (∀ (T : Type) [DecidableEq T] (s : Set T) (xs : List T),
      (∀ y, s.Has y = true → y ∈ xs) → (xs.foldl Set.Remove s).Len = 0) := by
  constructor
  · intro T _ s x hx
    rw [Has_eq_decide, decide_eq_true_eq] at hx
    rw [Len_eq_length, Len_eq_length, Remove_keys, List.length_erase_of_mem hx]
    have hpos : 0 < s.keys.length := List.length_pos_of_mem hx
    omega
  · intro T _ s xs hall
    have hnil : (xs.foldl Set.Remove s).keys = [] := by
      rw [List.eq_nil_iff_forall_not_mem]
      intro y hy
      have hy1 : (xs.foldl Set.Remove s).Has y = true := by
        rw [Has_eq_decide, decide_eq_true_eq]
        exact hy
      rw [Has_foldl_Remove] at hy1
      exact hy1.2 (hall y hy1.1)
    rw [Len_eq_length, hnil]
    rfl

theorem Remove_Len_witness :
    ((Set.hmap ["a", "b", "c"] (by decide)).Has "b" = true ∧
      ((Set.hmap ["a", "b", "c"] (by decide)).Remove "b").Len
          = (Set.hmap ["a", "b", "c"] (by decide)).Len - 1 ∧
      0 ≤ ((Set.hmap ["a", "b", "c"] (by decide)).Remove "b").Len) ∧
    (["a", "b", "c"].foldl Set.Remove (Set.hmap ["a", "b", "c"] (by decide))).Len = 0 :=
  ⟨⟨by decide, Remove_Len.1 String (Set.hmap ["a", "b", "c"] (by decide)) "b" (by decide)⟩,
    Remove_Len.2 String (Set.hmap ["a", "b", "c"] (by decide)) ["a", "b", "c"]
      (by intro y hy; rw [Has_hmap] at hy; exact hy)⟩

/-- C8: removal of an absent element is a no-op: for every set `S` (the empty
set and the nil map included) and every `x` that is not a member of `S`,
`S.Remove(x)` leaves `Len()` and the membership of every element unchanged, and
the set after the call equals the set before it. -/
theorem Remove_absent_noop [DecidableEq T] (s : Set T) (x : T) (h : s.Has x = false) :
    (s.Remove x).Len = s.Len ∧ (∀ y, (s.Remove x).Has y = s.Has y) ∧ s.Remove x = s := by
  rw [Has_eq_decide, decide_eq_false_iff_not] at h
  have hkeys : (s.Remove x).keys = s.keys := by
    rw [Remove_keys, List.erase_of_not_mem h]
  refine ⟨?_, ?_, ?_⟩
  · rw [Len_eq_length, Len_eq_length, hkeys]
  · intro y
    rw [Has_eq_decide, Has_eq_decide, hkeys]
  · cases s with
    | nil => rfl
    | hmap keys nodup => exact hmap_congr (List.erase_of_not_mem h) _ _

theorem Remove_absent_noop_witness :
    ((Set.hmap ["a", "b"] (by decide)).Has "c" = false ∧
      ((Set.hmap ["a", "b"] (by decide)).Remove "c").Len
          = (Set.hmap ["a", "b"] (by decide)).Len ∧
      (∀ y, ((Set.hmap ["a", "b"] (by decide)).Remove "c").Has y
          = (Set.hmap ["a", "b"] (by decide)).Has y) ∧
      (Set.hmap ["a", "b"] (by decide)).Remove "c" = Set.hmap ["a", "b"] (by decide)) ∧
    ((New : Set String).Has "test" = false ∧
      ((New : Set String).Remove "test").Len = (New : Set String).Len ∧
      (∀ y, ((New : Set String).Remove "test").Has y = (New : Set String).Has y) ∧
      (New : Set String).Remove "test" = New) :=
  ⟨⟨by decide, Remove_absent_noop (Set.hmap ["a", "b"] (by decide)) "c" (by decide)⟩,
    ⟨by decide, Remove_absent_noop (New : Set String) "test" (by decide)⟩⟩

/-- C9: insertion/removal inverse: for every set `S` (an allocated map) and every
`x` not in `S`, `Add(x)` returns, and after the following `Remove(x)` the element
`x` is absent, `Len()` has its value from before the `Add`, every other element
has the membership it had, and the set is equal to the original `S`. -/
theorem Add_Remove_inverse [DecidableEq T] (s : Set T) (hs : s ≠ Set.nil) (x : T)
    (h : s.Has x = false) :
    ∃ s1, s.Add x = .ok s1 ∧
      (s1.Remove x).Has x = false ∧
      (s1.Remove x).Len = s.Len ∧
      (∀ y, y ≠ x → (s1.Remove x).Has y = s.Has y) ∧
      s1.Remove x = s := by
  obtain ⟨s1, h1, hn1, hk⟩ := Add_ok s hs x
  rw [Has_eq_decide, decide_eq_false_iff_not] at h
  rw [if_neg h] at hk
  have hkeys : (s1.Remove x).keys = s.keys := by
    rw [Remove_keys, hk, List.erase_append_right _ h]
    simp
  refine ⟨s1, h1, ?_, ?_, ?_, ?_⟩
  · rw [Has_eq_decide, hkeys]
    simpa using h
  · rw [Len_eq_length, Len_eq_length, hkeys]
  · intro y _
    rw [Has_eq_decide, Has_eq_decide, hkeys]
  · exact eq_of_keys_eq (fun hnil => hn1 ((Remove_eq_nil_iff s1 x).1 hnil)) hs hkeys

theorem Add_Remove_inverse_witness :
    Set.hmap ["a", "b"] (by decide) ≠ Set.nil ∧
    (Set.hmap ["a", "b"] (by decide)).Has "c" = false ∧
    ∃ s1, (Set.hmap ["a", "b"] (by decide)).Add "c" = .ok s1 ∧
      (s1.Remove "c").Has "c" = false ∧
      (s1.Remove "c").Len = (Set.hmap ["a", "b"] (by decide)).Len ∧
      (s1.Remove "c").Has "a" = (Set.hmap ["a", "b"] (by decide)).Has "a" ∧
      s1.Remove "c" = Set.hmap ["a", "b"] (by decide) :=
  ⟨by simp, by decide,
    match Add_Remove_inverse (Set.hmap ["a", "b"] (by decide)) (by simp) "c" (by decide) with
    | ⟨s1, h1, h2, h3, h4, h5⟩ => ⟨s1, h1, h2, h3, h4 "a" (by decide), h5⟩⟩

/-- C10: empty construction: `New()` and `NewWith()` without values both return a
set with `Len() == 0` on which `Has(x)` is false for every element `x`. -/
theorem New_NewWith_empty (T : Type) [DecidableEq T] :
    ((New : Set T).Len = 0 ∧ ∀ x : T, (New : Set T).Has x = false) ∧
    ∃ s : Set T, NewWith [] = .ok s ∧ s.Len = 0 ∧ ∀ x : T, s.Has x = false := by
  refine ⟨⟨rfl, fun x => ?_⟩, New, rfl, rfl, fun x => ?_⟩ <;>
    simp [New, make, Set.Has, mapaccess2]

/-! Iteration: runs of `range`, `Foreach` and `ToSlice`. -/

theorem Range.mem_order [DecidableEq T] {s : Set T} (run : Range s) (x : T) :
    x ∈ run.order ↔ s.Has x = true := by
  rw [Has_eq_decide, decide_eq_true_eq]
  exact run.perm.mem_iff

theorem Range.nodup_order {s : Set T} (run : Range s) : run.order.Nodup :=
  run.perm.nodup_iff.2 (keys_nodup s)

theorem Range.length_order {s : Set T} (run : Range s) :
    (run.order.length : Int) = s.Len := by
  rw [Len_eq_length, run.perm.length_eq]

theorem Len_nonneg (s : Set T) : 0 ≤ s.Len := by
  rw [Len_eq_length]
  exact Int.natCast_nonneg _

theorem mem_members [DecidableEq T] (s : Set T) (x : T) :
    x ∈ s.members ↔ s.Has x = true := by
  rw [Has_eq_decide, decide_eq_true_eq]
  exact List.mem_toFinset

theorem card_members [DecidableEq T] (s : Set T) : (s.members.card : Int) = s.Len := by
  rw [Len_eq_length, Set.members, List.toFinset_card_of_nodup (keys_nodup s)]

theorem makeSlice_Len (s : Set T) : makeSlice s.Len = .ok (Slice.array ([] : List T)) := by
  have h : ¬ s.Len < 0 := not_lt.2 (Len_nonneg s)
  simp [makeSlice, h]

theorem foldl_append_array (l : List T) :
    ∀ elems : List T,
      l.foldl (fun list value => append list value) (Slice.array elems)
        = Slice.array (elems ++ l) := by
  induction l with
  | nil => intro elems; simp
  | cons v l ih =>
    intro elems
    rw [List.foldl_cons]
    show List.foldl (fun list value => append list value) (Slice.array (elems ++ [v])) l = _
    rw [ih]
    simp

/-- What `ToSlice` returns: it never panics, and the slice holds the keys in the
order of the run. -/
theorem ToSlice_eq (s : Set T) (run : Range s) :
    s.ToSlice run = .ok (Slice.array run.order) := by
  unfold Set.ToSlice
  rw [makeSlice_Len]
  show Except.ok _ = _
  rw [foldl_append_array]
  simp

theorem foldl_log (l : List T) :
    ∀ log : List T, l.foldl (fun log value => log ++ [value]) log = log ++ l := by
  induction l with
  | nil => intro log; simp
  | cons v l ih =>
    intro log
    rw [List.foldl_cons, ih]
    simp

/-- The calls that `Foreach` makes are the keys in the order of the run. -/
theorem visits_eq (s : Set T) (run : Range s) : s.visits run = run.order := by
  unfold Set.visits Set.Foreach
  rw [foldl_log]
  simp

/-- C11: for every set `S` and every run of the iteration, `ToSlice()` returns a
sequence that contains exactly the current members, each exactly once: `x`
occurs in it if and only if `S.Has(x)`, and no element occurs in it twice. -/
theorem ToSlice_members [DecidableEq T] (s : Set T) (run : Range s) :
    ∃ list, s.ToSlice run = .ok list ∧
      (∀ x, x ∈ list.toList ↔ s.Has x = true) ∧ list.toList.Nodup ∧
      ∀ x, list.toList.count x = if s.Has x = true then 1 else 0 := by
  refine ⟨_, ToSlice_eq s run, fun x => run.mem_order x, run.nodup_order, fun x => ?_⟩
  show List.count x run.order = _
  by_cases hx : s.Has x = true
  · rw [if_pos hx]
    exact List.count_eq_one_of_mem run.nodup_order ((run.mem_order x).2 hx)
  · rw [if_neg hx]
    exact List.count_eq_zero_of_not_mem (fun h => hx ((run.mem_order x).1 h))

/-- C12: for every set `S` and every run of the iteration, `len(S.ToSlice())`
equals `S.Len()`, and `Len()` is not negative and is the number of the distinct
elements `x` for which `Has(x)` is true. -/
theorem ToSlice_len_eq_Len [DecidableEq T] (s : Set T) (run : Range s) :
    (∃ list, s.ToSlice run = .ok list ∧ list.len = s.Len) ∧
    0 ≤ s.Len ∧
    ∃ members : Finset T, (∀ x, x ∈ members ↔ s.Has x = true) ∧
      s.Len = (members.card : Int) := by
  refine ⟨⟨_, ToSlice_eq s run, ?_⟩, Len_nonneg s, s.members, mem_members s,
    (card_members s).symm⟩
  exact run.length_order

/-- C13: Foreach completeness: for every set `S`, every run of the iteration and
a visitor that acts on its own state, `Foreach` calls the visitor exactly
`Len(S)` times, with pairwise distinct arguments, and an element is passed to
the visitor if and only if it is a member of `S`; on an empty set the visitor is
not called, and the final state of any visitor is that of being called on the
recorded arguments in turn. -/
theorem Foreach_complete [DecidableEq T] (s : Set T) (run : Range s) :
    ((s.visits run).length : Int) = s.Len ∧
    (s.visits run).Nodup ∧
    (∀ x, x ∈ s.visits run ↔ s.Has x = true) ∧
    (s.Len = 0 → s.visits run = []) ∧
    ∀ (σ : Type) (visit : T → σ → σ) (st : σ),
      s.Foreach run visit st = (s.visits run).foldl (fun st value => visit value st) st := by
  rw [visits_eq]
  refine ⟨run.length_order, run.nodup_order, fun x => run.mem_order x, ?_, ?_⟩
  · intro h0
    have hlen := run.length_order
    rw [h0] at hlen
    exact List.length_eq_zero.1 (by exact_mod_cast hlen)
  · intro σ visit st
    rfl

theorem ToSlice_members_witness :
    ∃ list,
      (Set.hmap ["a", "b", "c"] (by decide)).ToSlice ⟨["c", "a", "b"], by decide⟩ = .ok list ∧
      list.toList = ["c", "a", "b"] ∧
      (∀ x, x ∈ list.toList ↔ (Set.hmap ["a", "b", "c"] (by decide)).Has x = true) ∧
      list.toList.Nodup :=
  match ToSlice_members (Set.hmap ["a", "b", "c"] (by decide)) ⟨["c", "a", "b"], by decide⟩ with
  | ⟨list, h1, h2, h3, _⟩ =>
    ⟨list, h1, by cases h1; rfl, h2, h3⟩

theorem Foreach_complete_witness :
    ((Set.hmap ["a", "b", "c"] (by decide)).visits ⟨["b", "c", "a"], by decide⟩).length = 3 ∧
    ((New : Set String).Len = 0 ∧ (New : Set String).visits (Range.inOrder New) = []) :=
  ⟨by
      have h := (Foreach_complete (Set.hmap ["a", "b", "c"] (by decide))
        ⟨["b", "c", "a"], by decide⟩).1
      have h3 : (Set.hmap ["a", "b", "c"] (by decide)).Len = 3 := rfl
      rw [h3] at h
      exact_mod_cast h,
    rfl, (Foreach_complete (New : Set String) (Range.inOrder New)).2.2.2.1 rfl⟩

theorem wrapInt_add_left (a b : Int) : wrapInt (wrapInt a + b) = wrapInt (a + b) := by
  unfold wrapInt
  omega

theorem wrapInt_of_inRange (z : Int) (h1 : -9223372036854775808 ≤ z)
    (h2 : z < 9223372036854775808) : wrapInt z = z := by
  unfold wrapInt
  omega

theorem foldl_intAdd (l : List Int) :
    ∀ a : Int, l.foldl (fun sum value => intAdd sum value) (wrapInt a) = wrapInt (a + l.sum) := by
  induction l with
  | nil => intro a; simp
  | cons v l ih =>
    intro a
    rw [List.foldl_cons]
    show List.foldl (fun sum value => intAdd sum value) (wrapInt (wrapInt a + v)) l = _
    rw [wrapInt_add_left, ih, List.sum_cons, add_assoc]

theorem foldl_add_eq_sum {M : Type} [AddCommMonoid M] (l : List M) :
    ∀ a : M, l.foldl (fun sum value => sum + value) a = a + l.sum := by
  induction l with
  | nil => intro a; simp
  | cons v l ih =>
    intro a
    rw [List.foldl_cons, ih, List.sum_cons, add_assoc]

/-- The sum of the members of a set is the sum of the keys of any run. -/
theorem sum_members_eq {M : Type} [AddCommMonoid M] [DecidableEq M] (s : Set M)
    (run : Range s) : s.members.sum (fun x => x) = run.order.sum := by
  rw [Set.members, List.sum_toFinset _ (keys_nodup s)]
  have hmap : List.map (fun x : M => x) s.keys = s.keys := List.map_id s.keys
  rw [hmap]
  exact (run.perm.sum_eq).symm

/-- C14: for every set `S` of integers and every order in which the iteration
visits the members, a `Foreach` whose visitor adds each visited value to an
accumulator that starts at 0 ends with the accumulator equal to the sum of the
distinct members of `S`: for sums in any commutative arithmetic, for the wrapping
addition of Go `int` in particular; for the set constructed from `[1,2,3,4,5]`
the result is 15. -/
theorem Foreach_sum :
    (∀ (M : Type) [AddCommMonoid M] [DecidableEq M] (s : Set M) (run : Range s),
      s.Foreach run (fun value sum => sum + value) 0 = s.members.sum (fun x => x)) ∧
    (∀ (s : Set Int) (run : Range s),
      s.Foreach run (fun value sum => intAdd sum value) 0
          = wrapInt (s.members.sum (fun x => x)) ∧
      (-9223372036854775808 ≤ s.members.sum (fun x => x) →
        s.members.sum (fun x => x) < 9223372036854775808 →
        s.Foreach run (fun value sum => intAdd sum value) 0 = s.members.sum (fun x => x))) ∧
    (∃ s : Set Int, NewWith [1, 2, 3, 4, 5] = .ok s ∧
      ∀ run : Range s,
        s.Foreach run (fun value sum => sum + value) 0 = 15 ∧
        s.Foreach run (fun value sum => intAdd sum value) 0 = 15) := by
  have gen : ∀ (M : Type) [AddCommMonoid M] [DecidableEq M] (s : Set M) (run : Range s),
      s.Foreach run (fun value sum => sum + value) 0 = s.members.sum (fun x => x) := by
    intro M _ _ s run
    rw [sum_members_eq s run]
    unfold Set.Foreach
    rw [foldl_add_eq_sum, zero_add]
  have goInt : ∀ (s : Set Int) (run : Range s),
      s.Foreach run (fun value sum => intAdd sum value) 0
        = wrapInt (s.members.sum (fun x => x)) := by
    intro s run
    rw [sum_members_eq s run]
    unfold Set.Foreach
    have h := foldl_intAdd run.order 0
    rw [zero_add] at h
    exact h
  refine ⟨gen, fun s run => ⟨goInt s run, fun h1 h2 => ?_⟩, ?_⟩
  · rw [goInt s run, wrapInt_of_inRange _ h1 h2]
  · refine ⟨Set.hmap [1, 2, 3, 4, 5] (by decide), rfl, fun run => ?_⟩
    have hsum : (Set.hmap [1, 2, 3, 4, 5] (by decide) : Set Int).members.sum (fun x => x) = 15 := by
      decide
    refine ⟨?_, ?_⟩
    · rw [gen, hsum]
    · rw [goInt, hsum]
      rfl

/-! Sequences of `Add` and `Remove` calls. -/

/-- After `Add(x)` on an allocated map the members are `x` and the old members. -/
theorem Add_spec [DecidableEq T] (s : Set T) (hs : s ≠ Set.nil) (x : T) :
    ∃ s1, s.Add x = .ok s1 ∧ s1 ≠ Set.nil ∧
      ∀ y, s1.Has y = true ↔ y = x ∨ s.Has y = true := by
  obtain ⟨s1, h1, hn1, hk⟩ := Add_ok s hs x
  refine ⟨s1, h1, hn1, fun y => ?_⟩
  rw [Has_eq_decide, Has_eq_decide, hk, decide_eq_true_eq, decide_eq_true_eq]
  by_cases hx : x ∈ s.keys
  · rw [if_pos hx]
    constructor
    · exact fun h => Or.inr h
    · rintro (h | h)
      · exact h ▸ hx
      · exact h
  · rw [if_neg hx, List.mem_append, List.mem_singleton]
    tauto

theorem Remove_spec [DecidableEq T] (s : Set T) (x y : T) :
    (s.Remove x).Has y = true ↔ y ≠ x ∧ s.Has y = true := by
  rw [Has_eq_decide, Has_eq_decide, decide_eq_true_eq, decide_eq_true_eq]
  exact mem_keys_Remove s x y

theorem Remove_ne_nil [DecidableEq T] {s : Set T} (hs : s ≠ Set.nil) (x : T) :
    s.Remove x ≠ Set.nil :=
  fun h => hs ((Remove_eq_nil_iff s x).1 h)

theorem not_Live_nil (x : T) : ¬ Live ([] : List (Call T)) x := by
  rintro ⟨before, after, h, _⟩
  cases before <;> simp at h

theorem Live_cons_Add (y : T) (cs : List (Call T)) (x : T) :
    Live (Call.Add y :: cs) x ↔ (x = y ∧ Call.Remove x ∉ cs) ∨ Live cs x := by
  constructor
  · rintro ⟨before, after, h, hafter⟩
    cases before with
    | nil =>
      rw [List.nil_append, List.cons.injEq] at h
      obtain ⟨h1, h2⟩ := h
      cases h1
      exact Or.inl ⟨rfl, h2 ▸ hafter⟩
    | cons c before =>
      rw [List.cons_append, List.cons.injEq] at h
      exact Or.inr ⟨before, after, h.2, hafter⟩
  · rintro (⟨rfl, h⟩ | ⟨before, after, h, hafter⟩)
    · exact ⟨[], cs, rfl, h⟩
    · exact ⟨Call.Add y :: before, after, by rw [h]; rfl, hafter⟩

theorem Live_cons_Remove (y : T) (cs : List (Call T)) (x : T) :
    Live (Call.Remove y :: cs) x ↔ Live cs x := by
  constructor
  · rintro ⟨before, after, h, hafter⟩
    cases before with
    | nil =>
      rw [List.nil_append, List.cons.injEq] at h
      exact absurd h.1 (by simp)
    | cons c before =>
      rw [List.cons_append, List.cons.injEq] at h
      exact ⟨before, after, h.2, hafter⟩
  · rintro ⟨before, after, h, hafter⟩
    exact ⟨Call.Remove y :: before, after, by rw [h]; rfl, hafter⟩

/-- A sequence of calls on an allocated map never panics; afterwards an element is
a member when it is live in the sequence, or was a member and is not removed. -/
theorem calls_spec [DecidableEq T] (cs : List (Call T)) :
    ∀ s : Set T, s ≠ Set.nil →
      ∃ s1, s.calls cs = .ok s1 ∧ s1 ≠ Set.nil ∧
        ∀ x, s1.Has x = true ↔ Live cs x ∨ (s.Has x = true ∧ Call.Remove x ∉ cs) := by
  induction cs with
  | nil =>
    intro s hs
    refine ⟨s, rfl, hs, fun x => ?_⟩
    simp [not_Live_nil]
  | cons c cs ih =>
    intro s hs
    cases c with
    | Add y =>
      obtain ⟨s1, h1, hn1, hmem1⟩ := Add_spec s hs y
      obtain ⟨s2, h2, hn2, hmem2⟩ := ih s1 hn1
      refine ⟨s2, ?_, hn2, fun x => ?_⟩
      · unfold Set.calls
        rw [List.foldlM_cons]
        show (s.Add y >>= fun s1 => List.foldlM Call.apply s1 cs) = _
        rw [h1]
        exact h2
      · rw [hmem2 x, hmem1 x, Live_cons_Add]
        simp only [List.mem_cons, reduceCtorEq, false_or]
        tauto
    | Remove y =>
      obtain ⟨s2, h2, hn2, hmem2⟩ := ih (s.Remove y) (Remove_ne_nil hs y)
      refine ⟨s2, ?_, hn2, fun x => ?_⟩
      · unfold Set.calls
        rw [List.foldlM_cons]
        exact h2
      · rw [hmem2 x, Remove_spec, Live_cons_Remove]
        simp only [List.mem_cons, Call.Remove.injEq, not_or]
        tauto

/-- C15: every finite sequence of `Add` and `Remove` calls applied to a set
created by `New()` runs to the end; afterwards `Has(x)` is true if and only if
the sequence contains an `Add(x)` that no later `Remove(x)` follows, and `Len()`
is the number of such elements.  The sequence `Add("a")`, `Add("b")`, `Add("c")`,
`Remove("b")`, `Add("d")`, `Remove("a")` ends with `Len() == 2`, `Has("c")` and
`Has("d")` true, `Has("a")` and `Has("b")` false. -/
theorem calls_from_New :
    (∀ (T : Type) [DecidableEq T] (cs : List (Call T)),
      ∃ s, (New : Set T).calls cs = .ok s ∧
        (∀ x, s.Has x = true ↔ Live cs x) ∧
        ∃ live : Finset T, (∀ x, x ∈ live ↔ Live cs x) ∧ s.Len = (live.card : Int)) ∧
    (∃ s, (New : Set String).calls
        [.Add "a", .Add "b", .Add "c", .Remove "b", .Add "d", .Remove "a"] = .ok s ∧
      s.Len = 2 ∧ s.Has "c" = true ∧ s.Has "d" = true ∧
      s.Has "a" = false ∧ s.Has "b" = false) := by
  constructor
  · intro T _ cs
    obtain ⟨s, h, _, hmem⟩ := calls_spec cs (New : Set T) (by simp [New, make])
    have hHas : ∀ x, s.Has x = true ↔ Live cs x := by
      intro x
      rw [hmem x]
      have hnew : (New : Set T).Has x = false := by
        simp [New, make, Set.Has, mapaccess2]
      simp [hnew]
    refine ⟨s, h, hHas, s.members, fun x => ?_, (card_members s).symm⟩
    rw [mem_members, hHas]
  · exact ⟨Set.hmap ["c", "d"] (by decide), rfl, rfl, rfl, rfl, rfl, rfl⟩

/-! The zero value, empty results, and sets compared as collections. -/

/-- Membership determines the length: two sets with the same members are equal
as collections. -/
theorem Equal_of_Has [DecidableEq T] {s t : Set T}
    (h : ∀ x, s.Has x = true ↔ t.Has x = true) : s.Equal t := by
  constructor
  · rw [← card_members s, ← card_members t]
    have hm : s.members = t.members := by
      ext x
      rw [mem_members, mem_members, h x]
    rw [hm]
  · intro x
    exact Bool.eq_iff_iff.2 (h x)

/-- `NewWith` on pairwise distinct values stores them as they come. -/
theorem NewWith_nodup [DecidableEq T] (vs : List T) (nodup : vs.Nodup) :
    NewWith vs = .ok (Set.hmap vs nodup) := by
  have all : ([] ++ vs).Nodup := by simpa using nodup
  exact (foldlM_Add_nodup vs [] List.nodup_nil all).trans
    (congrArg Except.ok (hmap_congr (by simp) all nodup))

/-- C16 fails as stated: on the zero value of `Set[string]`, the nil map,
`Add("a")` panics with an assignment to an entry in a nil map, so it does not
complete. -/
theorem Add_nil_panics :
    (Set.nil : Set String).Add "a" = .error Panic.assignmentToEntryInNilMap ∧
    ¬ ∃ s1, (Set.nil : Set String).Add "a" = .ok s1 := by
  refine ⟨rfl, ?_⟩
  rintro ⟨s1, h⟩
  cases h

/-- C16, amended: for every value `s` of type `Set[T]` and every element `x`:
`s.Add(x)` completes without a panic on every map that is not nil, and panics on
the zero value, the nil map; `s.ToSlice()` completes on every value; and on the
nil map `Remove` leaves it nil, `Has` is false, `Len` is 0, `ToSlice` returns an
empty slice and `Foreach` returns without calling the visitor.  (`Remove`, `Has`,
`Len` and `Foreach` have no panicking statement: they are total functions
here.) -/
theorem methods_complete [DecidableEq T] (s : Set T) (x : T) :
    (s ≠ Set.nil → ∃ s1, s.Add x = .ok s1) ∧
    (s = Set.nil → s.Add x = .error Panic.assignmentToEntryInNilMap) ∧
    (∀ run : Range s, ∃ list, s.ToSlice run = .ok list) ∧
    ((Set.nil : Set T).Remove x = Set.nil ∧
      (Set.nil : Set T).Has x = false ∧
      (Set.nil : Set T).Len = 0 ∧
      ∀ run : Range (Set.nil : Set T),
        (Set.nil : Set T).ToSlice run = .ok (Slice.array []) ∧
        ∀ (σ : Type) (visit : T → σ → σ) (st : σ),
          (Set.nil : Set T).Foreach run visit st = st) := by
  refine ⟨fun hs => ?_, fun hs => ?_, fun run => ⟨_, ToSlice_eq s run⟩,
    rfl, rfl, rfl, fun run => ?_⟩
  · obtain ⟨s1, h1, _⟩ := Add_ok s hs x
    exact ⟨s1, h1⟩
  · rw [hs]
    rfl
  · have horder : run.order = [] := List.Perm.eq_nil run.perm
    refine ⟨?_, fun σ visit st => ?_⟩
    · rw [ToSlice_eq, horder]
    · unfold Set.Foreach
      rw [horder]
      rfl

theorem methods_complete_witness :
    (∃ s1, (New : Set String).Add "a" = .ok s1) ∧
    (Set.nil : Set String).Add "a" = .error Panic.assignmentToEntryInNilMap :=
  ⟨(methods_complete (New : Set String) "a").1 (by simp [New, make]),
    (methods_complete (Set.nil : Set String) "a").2.1 rfl⟩

/-- C17: for every set `S` with `Len() == 0` and every run of the iteration,
`S.ToSlice()` returns a sequence that is empty and is not nil. -/
theorem ToSlice_empty_not_nil (s : Set T) (h : s.Len = 0) (run : Range s) :
    ∃ list, s.ToSlice run = .ok list ∧
      list.len = 0 ∧ list.toList = [] ∧ list.isNil = false := by
  refine ⟨_, ToSlice_eq s run, ?_, ?_, rfl⟩
  · show ((run.order.length : Int)) = 0
    rw [run.length_order, h]
  · have hlen := run.length_order
    rw [h] at hlen
    exact List.length_eq_zero.1 (by exact_mod_cast hlen)

theorem ToSlice_empty_not_nil_witness :
    (New : Set String).Len = 0 ∧
    ∃ list, (New : Set String).ToSlice (Range.inOrder New) = .ok list ∧
      list.len = 0 ∧ list.toList = [] ∧ list.isNil = false :=
  ⟨rfl, ToSlice_empty_not_nil (New : Set String) rfl (Range.inOrder New)⟩

/-- C19: round trip through a sequence: for every set `S` and every run of the
iteration, `NewWith(S.ToSlice()...)` returns a set equal to `S`: it has the same
`Len()` as `S`, and `Has(x)` agrees with `S.Has(x)` for every element `x`. -/
theorem NewWith_ToSlice_roundtrip [DecidableEq T] (s : Set T) (run : Range s) :
    ∃ list, s.ToSlice run = .ok list ∧
      ∃ s1, NewWith list.toList = .ok s1 ∧
        s1.Len = s.Len ∧ ∀ x, s1.Has x = s.Has x := by
  refine ⟨_, ToSlice_eq s run, _, NewWith_nodup run.order run.nodup_order, ?_, fun x => ?_⟩
  · exact run.length_order
  · apply Bool.eq_iff_iff.2
    rw [Has_hmap]
    exact run.mem_order x

/-- C20: the set built by `NewWith` does not depend on the order or the
multiplicity of its arguments: for every two sequences with the same occurring
values, `NewWith` returns equal sets (the same `Len()`, the same `Has`); `Add(x)`
commutes with `Add(y)` for all `x`, `y`, and `Add(x)` commutes with `Remove(y)`
whenever `x` differs from `y`: on every allocated map both orders return equal
sets, and on the nil map both orders end in the same panic. -/
theorem NewWith_order_multiplicity :
    (∀ (T : Type) [DecidableEq T] (vs ws : List T), (∀ x, x ∈ vs ↔ x ∈ ws) →
      ∃ s t, NewWith vs = .ok s ∧ NewWith ws = .ok t ∧ s.Equal t) ∧
    (∀ (T : Type) [DecidableEq T] (s : Set T) (x y : T), s ≠ Set.nil →
      ∃ a axy b ayx, s.Add x = .ok a ∧ a.Add y = .ok axy ∧
        s.Add y = .ok b ∧ b.Add x = .ok ayx ∧ axy.Equal ayx) ∧
    (∀ (T : Type) [DecidableEq T] (s : Set T) (x y : T), s ≠ Set.nil → x ≠ y →
      ∃ a b, s.Add x = .ok a ∧ (s.Remove y).Add x = .ok b ∧ (a.Remove y).Equal b) ∧
    (∀ (T : Type) [DecidableEq T] (x y : T),
      ((Set.nil : Set T).Add x).bind (fun a => a.Add y)
        = ((Set.nil : Set T).Add y).bind (fun b => b.Add x) ∧
      ((Set.nil : Set T).Add x).map (fun a => a.Remove y)
        = ((Set.nil : Set T).Remove y).Add x) := by
  refine ⟨?_, ?_, ?_, fun T _ x y => ⟨rfl, rfl⟩⟩
  · intro T _ vs ws hsame
    obtain ⟨kv, nv, hv, hkv⟩ := NewWith_hmap vs
    obtain ⟨kw, nw, hw, hkw⟩ := NewWith_hmap ws
    refine ⟨_, _, hv, hw, Equal_of_Has fun x => ?_⟩
    rw [Has_hmap, Has_hmap, hkv, hkw, hsame]
  · intro T _ s x y hs
    obtain ⟨a, ha, hna, hma⟩ := Add_spec s hs x
    obtain ⟨axy, haxy, _, hmaxy⟩ := Add_spec a hna y
    obtain ⟨b, hb, hnb, hmb⟩ := Add_spec s hs y
    obtain ⟨ayx, hayx, _, hmayx⟩ := Add_spec b hnb x
    refine ⟨a, axy, b, ayx, ha, haxy, hb, hayx, Equal_of_Has fun z => ?_⟩
    rw [hmaxy, hma, hmayx, hmb]
    tauto
  · intro T _ s x y hs hxy
    obtain ⟨a, ha, _, hma⟩ := Add_spec s hs x
    obtain ⟨b, hb, _, hmb⟩ := Add_spec (s.Remove y) (Remove_ne_nil hs y) x
    refine ⟨a, b, ha, hb, Equal_of_Has fun z => ?_⟩
    rw [Remove_spec, hma, hmb, Remove_spec]
    constructor
    · rintro ⟨hzy, h | h⟩
      · exact Or.inl h
      · exact Or.inr ⟨hzy, h⟩
    · rintro (h | ⟨hzy, h⟩)
      · exact ⟨fun hz => hxy (h ▸ hz), Or.inl h⟩
      · exact ⟨hzy, Or.inr h⟩

theorem NewWith_order_multiplicity_witness :
    (∃ s t, NewWith ["a", "b", "c"] = .ok s ∧ NewWith ["c", "a", "b", "a"] = .ok t ∧
      s.Equal t) ∧
    (∃ a axy b ayx, (New : Set String).Add "x" = .ok a ∧ a.Add "y" = .ok axy ∧
      (New : Set String).Add "y" = .ok b ∧ b.Add "x" = .ok ayx ∧ axy.Equal ayx) ∧
    (∃ a b, (Set.hmap ["y"] (by decide)).Add "x" = .ok a ∧
      ((Set.hmap ["y"] (by decide)).Remove "y").Add "x" = .ok b ∧ (a.Remove "y").Equal b) :=
  ⟨NewWith_order_multiplicity.1 String ["a", "b", "c"] ["c", "a", "b", "a"]
      (by
        intro x
        simp only [List.mem_cons, List.mem_singleton, List.not_mem_nil, or_false]
        tauto),
    NewWith_order_multiplicity.2.1 String New "x" "y" (by simp [New, make]),
    NewWith_order_multiplicity.2.2.1 String (Set.hmap ["y"] (by decide)) "x" "y" (by simp)
      (by decide)⟩

end GolangSet
